import Mathlib

/-!
Shallow embedding of the hypermedia link-tree navigator of `tui_app.py`
(classes `TreePanel` and `TuiApp`).  Python dicts for links, items and
documents become structures with `Option`-valued fields (a missing key is
`none`); a dict subscript on a missing key becomes an explicit
`PyError.keyError`.  Functions thread the mutable state explicitly and
return the state reached at the point of a raise, so partial mutation
before an exception is preserved exactly as in the source.  Strings are
compared by code point, as Python does; `str.casefold` is modelled for
ASCII data as lowercasing.  Presentation-only attributes (`expand`,
`expand_all`) are not modelled; `allow_expand` is, because the source
assigns it.
-/

namespace WlsTui

/-- A link dict `{rel, href, title?}`; every key may be absent. -/
structure Link where
  rel : Option String := none
  href : Option String := none
  title : Option String := none
deriving Repr, DecidableEq

/-- An entry of a document's `items` array; only the keys the source
reads (`name`, `links`) are modelled. -/
structure Item where
  name : Option String := none
  links : Option (List Link) := none
deriving Repr, DecidableEq

/-- A fetched JSON document: the `links` and `items` keys the source
reads, plus an opaque remainder of other fields. -/
structure Document where
  links : Option (List Link) := none
  items : Option (List Item) := none
  rest : List (String × String) := []
deriving Repr, DecidableEq

/-- Python exceptions raised by the modelled code: `KeyError(k)`. -/
inductive PyError where
  | keyError (k : String)
deriving Repr, DecidableEq

/-- `str(e)` for a `KeyError` is the repr of its argument. -/
def PyError.pyStr : PyError → String
  | .keyError k => "'" ++ k ++ "'"

/-- ASCII lowercasing of one character (the effect of `str.casefold`
on the ASCII data this program handles). -/
def pyCharLower (c : Char) : Char :=
  if 65 ≤ c.toNat ∧ c.toNat ≤ 90 then Char.ofNat (c.toNat + 32) else c

/-- `str.casefold`, modelled for ASCII strings as lowercasing. -/
def pyCasefold (s : String) : String := ⟨s.data.map pyCharLower⟩

/-- `x.get('rel','').casefold()`: the sort key of `add_links_node`. -/
def sortKey (l : Link) : String := pyCasefold (l.rel.getD "")

/-- Lexicographic `<=` on code-point sequences: how Python compares the
sort keys. -/
def natsLe : List Nat → List Nat → Bool
  | [], _ => true
  | _ :: _, [] => false
  | a :: as, b :: bs => if a < b then true else if b < a then false else natsLe as bs

/-- The code points of a string. -/
def strCodes (s : String) : List Nat := s.data.map Char.toNat

/-- Python's `<=` on strings: lexicographic by code point. -/
def strLeB (a b : String) : Bool := natsLe (strCodes a) (strCodes b)

/-- The comparison under which `sorted(links, key=...)` orders links. -/
def keyLe (a b : Link) : Prop := strLeB (sortKey a) (sortKey b) = true

instance : DecidableRel keyLe := fun _ _ =>
  inferInstanceAs (Decidable (_ = true))

/-- `sorted(links, key=lambda x: x.get('rel','').casefold())`.  Python's
sort is stable; `List.insertionSort` over a total preorder computes the
same (unique) stable sort. -/
def pySorted (links : List Link) : List Link := List.insertionSort keyLe links

/-- `str.split(sep)` for a one-character separator, keeping empty
segments, over the character list of a string. -/
def splitOnChar (c : Char) : List Char → List (List Char)
  | [] => [[]]
  | x :: xs =>
    match splitOnChar c xs with
    | [] => [[]]
    | seg :: rest => if x = c then [] :: seg :: rest else (x :: seg) :: rest

/-- The scheme part `urllib.parse` strips: `scheme:` with a leading
letter and alphanumeric/`+`/`-`/`.` characters before the first colon. -/
def stripScheme (s : List Char) : List Char :=
  let pre := s.takeWhile (fun c => c ≠ ':')
  if pre.length < s.length ∧ pre ≠ [] ∧ (pre.headD ' ').isAlpha ∧
      pre.all (fun c => c.isAlphanum ∨ c = '+' ∨ c = '-' ∨ c = '.') then
    s.drop (pre.length + 1)
  else s

/-- `urlparse` splits `;params` off the last path segment. -/
def stripParams (p : List Char) : List Char :=
  let segs := splitOnChar '/' p
  let last := segs.getLastD []
  if last.contains ';' then
    List.intercalate ['/'] (segs.dropLast ++ [last.takeWhile (fun c => c ≠ ';')])
  else p

/-- `urlparse(url).path` over character lists: strip scheme, authority,
fragment, query and params.  Faithful for URLs without bracketed IPv6
hosts. -/
def urlPathChars (url : List Char) : List Char :=
  let s := stripScheme url
  let s := match s with
    | '/' :: '/' :: rest => rest.dropWhile (fun c => c ≠ '/' ∧ c ≠ '?' ∧ c ≠ '#')
    | _ => s
  let s := s.takeWhile (fun c => c ≠ '#')
  let s := s.takeWhile (fun c => c ≠ '?')
  stripParams s

/-- `urlparse(href).path.split('/')[-1]`: the label derivation for the
`parent` and `self` nodes. -/
def lastPathSeg (href : String) : String :=
  ⟨(splitOnChar '/' (urlPathChars href.data)).getLastD []⟩

/-- A Textual tree node: label, optional stored link dict (`node.data`),
`allow_expand`, and ordered children. -/
inductive PyTree where
  | mk (label : String) (data : Option Link) (allowExpand : Bool)
      (children : List PyTree)

def PyTree.label : PyTree → String
  | .mk l _ _ _ => l

def PyTree.data : PyTree → Option Link
  | .mk _ d _ _ => d

def PyTree.allowExpand : PyTree → Bool
  | .mk _ _ a _ => a

def PyTree.children : PyTree → List PyTree
  | .mk _ _ _ cs => cs

/-- The structural rels excluded from child leaves. -/
def structuralRels : List String := ["parent", "self", "canonical"]

/-- The mutable accumulator of the initial-population branch of
`add_links_node`: labels and data of the fixed `parent` and `self`
nodes, plus the leaves attached so far under `self`. -/
structure InitAcc where
  pLabel : String := "parent"
  pData : Option Link := none
  sLabel : String := "self"
  sData : Option Link := none
  leaves : List PyTree := []

/-- One loop iteration of the initial-population branch: `link['rel']`
(KeyError if absent), then the three `if` tests; `parent.data`/`self.data`
is assigned before `link['href']` is read, so a missing `href` raises
after the data overwrite, exactly as in the source. -/
def stepInit (l : Link) (acc : InitAcc) : InitAcc × Option PyError :=
  match l.rel with
  | none => (acc, some (.keyError "rel"))
  | some r =>
    if r = "parent" then
      match l.href with
      | none => ({ acc with pData := some l }, some (.keyError "href"))
      | some h => ({ acc with pData := some l, pLabel := lastPathSeg h }, none)
    else if r = "self" then
      match l.href with
      | none => ({ acc with sData := some l }, some (.keyError "href"))
      | some h => ({ acc with sData := some l, sLabel := lastPathSeg h }, none)
    else if r = "canonical" then (acc, none)
    else ({ acc with leaves := acc.leaves ++ [.mk r (some l) false []] }, none)

/-- The loop of the initial-population branch over the sorted links,
stopping at the first raise and returning the state reached. -/
def buildInit : List Link → InitAcc → InitAcc × Option PyError
  | [], acc => (acc, none)
  | l :: ls, acc =>
    match stepInit l acc with
    | (acc', none) => buildInit ls acc'
    | (acc', some e) => (acc', some e)

/-- The tree the initial-population branch leaves behind: the panel root
`"Links"` with the `parent` node, the `self` node one level below it, and
the leaves below `self`. -/
def rootTree (acc : InitAcc) : PyTree :=
  .mk "Links" none true
    [.mk acc.pLabel acc.pData true
      [.mk acc.sLabel acc.sData true acc.leaves]]

/-- `add_links_node(links)` with `parent_node=None`: clear the panel and
rebuild it from the sorted links; on a raise the partially built tree
remains. -/
def addLinksNodeInit (links : List Link) : PyTree × Option PyError :=
  let (acc, e) := buildInit (pySorted links) {}
  (rootTree acc, e)

/-- The label of a leaf added under a selected node: `"rel (title)"` for
an `action` link carrying a title, otherwise the rel. -/
def childLabel (r : String) (l : Link) : String :=
  match l.title with
  | some t => if r = "action" then r ++ " (" ++ t ++ ")" else r
  | none => r

/-- The loop of the child-population branch over the sorted links:
leaves for non-structural rels, stopping at the first raise. -/
def buildLeaves : List Link → List PyTree × Option PyError
  | [] => ([], none)
  | l :: ls =>
    match l.rel with
    | none => ([], some (.keyError "rel"))
    | some r =>
      if r ∈ structuralRels then buildLeaves ls
      else
        let (rest, e) := buildLeaves ls
        (.mk (childLabel r l) (some l) false [] :: rest, e)

/-- `add_links_node(links, parent_node)` with a parent node: a no-op when
the node already has children, otherwise attach one leaf per sorted
non-structural link and set `allow_expand` (which the loop body assigns,
so it is touched only when at least one leaf was added). -/
def populateNode (links : List Link) (n : PyTree) : PyTree × Option PyError :=
  match n with
  | .mk lb d ae cs =>
    if cs.isEmpty then
      let (ls, e) := buildLeaves (pySorted links)
      (.mk lb d (if ls.isEmpty then ae else true) ls, e)
    else (.mk lb d ae cs, none)

/-- A fetch outcome the `try` block can raise on: `requests` network
errors, `raise_for_status`, or `resp.json()` decode errors, each carrying
its `str(e)` message. -/
inductive FetchError where
  | network (msg : String)
  | httpStatus (code : Nat) (msg : String)
  | jsonDecode (msg : String)
deriving Repr, DecidableEq

def FetchError.pyStr : FetchError → String
  | .network m => m
  | .httpStatus _ m => m
  | .jsonDecode m => m

/-- The content of the output panels: either the JSON document handed to
`update_output`, or the error string built in the `except` branch. -/
inductive OutView where
  | jsonDoc (d : Document)
  | errText (s : String)
deriving Repr, DecidableEq

/-- `data = f'"error": "{str(e)}"'` of the `except` branch. -/
def fmtErr (s : String) : String := "\x22error\x22: \x22" ++ s ++ "\x22"

/-- The app state the claims observe: the `TreePanel` tree, the location
bar, the output panels (both show the same data, modelled once), the
configured `unclutter` flag, and the log of URIs passed to
`requests.get` (each call of `fetch_and_update` issues exactly one). -/
structure AppState where
  tree : PyTree
  breadcrumb : String
  output : OutView
  unclutter : Bool
  fetchLog : List String

/-- Address a node by the list of child indices from the panel root. -/
def getNode : PyTree → List Nat → Option PyTree
  | t, [] => some t
  | .mk _ _ _ cs, i :: p =>
    match cs[i]? with
    | some c => getNode c p
    | none => none

/-- Apply a fallible in-place update to the node at `path`; an invalid
path is a no-op (selections only ever deliver existing nodes). -/
def modifyAtE (t : PyTree) (path : List Nat) (f : PyTree → PyTree × Option PyError) :
    PyTree × Option PyError :=
  match path, t with
  | [], t => f t
  | i :: p, .mk lb d ae cs =>
    match cs[i]? with
    | some c =>
      let (c', e) := modifyAtE c p f
      (.mk lb d ae (cs.set i c'), e)
    | none => (.mk lb d ae cs, none)

/-- `current_node.allow_expand = True` at `path`. -/
def setAllowExpandAt (t : PyTree) (path : List Nat) : PyTree :=
  (modifyAtE t path (fun n => (.mk n.label n.data true n.children, none))).1

/-- The inner loop of item promotion over one item's `links`: for each
link, `link['rel']` (KeyError if absent); on `canonical`, `link['href']`
(KeyError if absent) and then `data['links'].append(...)` (KeyError if
the document has no `links` key).  Returns the document's `links` value
reached. -/
def promoLinks (name : Option String) :
    List Link → Option (List Link) → Option (List Link) × Option PyError
  | [], dl => (dl, none)
  | l :: ls, dl =>
    match l.rel with
    | none => (dl, some (.keyError "rel"))
    | some r =>
      if r = "canonical" then
        match l.href with
        | none => (dl, some (.keyError "href"))
        | some h =>
          match dl with
          | none => (none, some (.keyError "links"))
          | some cur =>
            promoLinks name ls
              (some (cur ++ [{ rel := some (name.getD "item"), href := some h }]))
      else promoLinks name ls dl

/-- The `for data_i in data['items']` loop: items without a `links` key
contribute nothing; otherwise the inner loop runs on the item's links. -/
def promoteItems : List Item → Option (List Link) → Option (List Link) × Option PyError
  | [], dl => (dl, none)
  | it :: its, dl =>
    match it.links with
    | none => promoteItems its dl
    | some ils =>
      match promoLinks it.name ils dl with
      | (dl', none) => promoteItems its dl'
      | (dl', some e) => (dl', some e)

/-- `if self.unclutter: data.pop('links', None)`, then hand the data to
the output panels. -/
def finishOutput (data : Document) (st : AppState) : AppState :=
  let d := if st.unclutter then { data with links := none } else data
  { st with output := .jsonDoc d }

/-- End the `try` block through the `except` branch: the state keeps all
mutations made before the raise, the output panels show the error
string. -/
def failWith (s : String) (st : AppState) : AppState :=
  { st with output := .errText (fmtErr s) }

/-- The `if 'links' in data:` step of the node-selection path, then the
output update. -/
def continueLinks (data : Document) (path : List Nat) (st : AppState) : AppState :=
  match data.links with
  | some ls =>
    let (t, e) := modifyAtE st.tree path (populateNode ls)
    let st := { st with tree := t }
    match e with
    | some pe => failWith pe.pyStr st
    | none => finishOutput data st
  | none => finishOutput data st

/-- The body of `fetch_and_update` after a successful fetch and JSON
decode: breadcrumb update, then either the initial tree rebuild or the
item-promotion / child-population path, then the output update; a raise
anywhere falls into the `except` branch with the mutations made so
far. -/
def fetchSuccess (data : Document) (uri : String) (cur : Option (List Nat))
    (st : AppState) : AppState :=
  let st := { st with breadcrumb := uri }
  match cur with
  | none =>
    let (t, e) := addLinksNodeInit (data.links.getD [])
    let st := { st with tree := t }
    match e with
    | some pe => failWith pe.pyStr st
    | none => finishOutput data st
  | some path =>
    match data.items with
    | some its =>
      let (dl, e) := promoteItems its data.links
      let data := { data with links := dl }
      match e with
      | some pe => failWith pe.pyStr st
      | none =>
        let st := { st with tree := setAllowExpandAt st.tree path }
        continueLinks data path st
    | none => continueLinks data path st

/-- `fetch_and_update(uri, current_node)`: always issues one GET (the
fetch log records it); a fetch failure reaches the `except` branch with
nothing mutated, a success runs the body. -/
def fetchAndUpdate (result : Except FetchError Document) (uri : String)
    (cur : Option (List Nat)) (st : AppState) : AppState :=
  let st := { st with fetchLog := st.fetchLog ++ [uri] }
  match result with
  | .error e => failWith e.pyStr st
  | .ok data => fetchSuccess data uri cur st

/-- `on_tree_node_selected`: if the selected node carries a link dict
with an `href` key, fetch that href with the node as current node;
otherwise nothing happens.  `fetcher` stands for the HTTP collaborator:
what `requests.get(...)` + `raise_for_status` + `.json()` return for a
URI. -/
def onTreeNodeSelected (fetcher : String → Except FetchError Document)
    (st : AppState) (path : List Nat) : AppState :=
  match getNode st.tree path with
  | none => st
  | some n =>
    match n.data with
    | none => st
    | some link =>
      match link.href with
      | some h => fetchAndUpdate (fetcher h) h (some path) st
      | none => st

/-- The promoted links of a document's items, written declaratively:
one link per `canonical` link of each item, rel = the item's name with
fallback `"item"`, href = the canonical link's href.  Used to state what
the imperative promotion loop computes. -/
def expandSpec (its : List Item) : List Link :=
  its.flatMap fun it =>
    ((it.links.getD []).filter (fun l => l.rel = some "canonical")).map fun l =>
      { rel := some (it.name.getD "item"), href := l.href }

/-- Bool test: the link's `rel` equals `r₀`. -/
def isRelB (r₀ : String) (l : Link) : Bool := l.rel = some r₀

/-- Bool test: the link is navigable (its rel is not structural). -/
def navigableB (l : Link) : Bool := !(structuralRels.contains (l.rel.getD ""))

/-- The leaf the initial-population branch attaches for a navigable link. -/
def mkInitLeaf (l : Link) : PyTree := .mk (l.rel.getD "") (some l) false []

/-- The leaf the child-population branch attaches for a navigable link. -/
def mkChildLeaf (l : Link) : PyTree := .mk (childLabel (l.rel.getD "") l) (some l) false []

/-- The rel of the link stored at a node, when any. -/
def leafRel (n : PyTree) : Option String := n.data.bind (·.rel)

def nilNode : PyTree := .mk "" none false []

/-- The fixed `parent`-role node of the rebuilt panel. -/
def parentNodeOf (t : PyTree) : PyTree := t.children.headD nilNode

/-- The fixed `self`-role node, one level below the parent node. -/
def selfNodeOf (t : PyTree) : PyTree := (parentNodeOf t).children.headD nilNode

/-- The leaves attached under the `self` node. -/
def selfLeaves (t : PyTree) : List PyTree := (selfNodeOf t).children

/-- A link the initial-population loop can process without raising. -/
def wfInitLink (l : Link) : Prop :=
  l.rel.isSome ∧ ((l.rel = some "parent" ∨ l.rel = some "self") → l.href.isSome)

/-- An item link the promotion loop can process without raising a
`rel`/`href` KeyError. -/
def wfItemLink (l : Link) : Prop :=
  l.rel.isSome ∧ (l.rel = some "canonical" → l.href.isSome)

/-- An item all of whose links are well-formed. -/
def wfItem (it : Item) : Prop := ∀ l ∈ it.links.getD [], wfItemLink l

instance (l : Link) : Decidable (wfInitLink l) := by
  unfold wfInitLink
  infer_instance

instance (l : Link) : Decidable (wfItemLink l) := by
  unfold wfItemLink
  infer_instance

instance (it : Item) : Decidable (wfItem it) := by
  unfold wfItem
  infer_instance

/-- The document as displayed after a successful fetch: on node-selection
fetches the promoted item links are appended to its `links` field (when
present), the initial fetch displays the document as fetched. -/
def augmentedDoc (data : Document) (cur : Option (List Nat)) : Document :=
  match cur, data.items with
  | some _, some its => { data with links := data.links.map (· ++ expandSpec its) }
  | _, _ => data

theorem natsLe_refl : ∀ as : List Nat, natsLe as as = true
  | [] => rfl
  | _ :: as => by simp [natsLe, natsLe_refl as]

theorem natsLe_total : ∀ as bs : List Nat, natsLe as bs = true ∨ natsLe bs as = true
  | [], _ => Or.inl rfl
  | _ :: _, [] => Or.inr rfl
  | a :: as, b :: bs => by
      rcases Nat.lt_trichotomy a b with h | h | h
      · exact Or.inl (by simp [natsLe, h])
      · subst h
        rcases natsLe_total as bs with h' | h'
        · exact Or.inl (by simp [natsLe, h'])
        · exact Or.inr (by simp [natsLe, h'])
      · exact Or.inr (by simp [natsLe, h])

theorem natsLe_trans : ∀ as bs cs : List Nat,
    natsLe as bs = true → natsLe bs cs = true → natsLe as cs = true
  | [], _, _ => by intro _ _; rfl
  | _ :: _, [], _ => by intro h _; simp [natsLe] at h
  | _ :: _, _ :: _, [] => by intro _ h; simp [natsLe] at h
  | a :: as, b :: bs, c :: cs => by
      intro h1 h2
      by_cases hab : a < b
      · by_cases hbc : b < c
        · simp [natsLe, Nat.lt_trans hab hbc]
        · by_cases hcb : c < b
          · simp [natsLe, hbc, hcb] at h2
          · have hbc' : b = c := Nat.le_antisymm (Nat.not_lt.mp hcb) (Nat.not_lt.mp hbc)
            subst hbc'
            simp [natsLe, hab]
      · by_cases hba : b < a
        · simp [natsLe, hab, hba] at h1
        · have hab' : a = b := Nat.le_antisymm (Nat.not_lt.mp hba) (Nat.not_lt.mp hab)
          subst hab'
          rw [show natsLe (a :: as) (a :: bs) = natsLe as bs from by
            simp [natsLe]] at h1
          by_cases hbc : a < c
          · simp [natsLe, hbc]
          · by_cases hcb : c < a
            · simp [natsLe, hbc, hcb] at h2
            · have hbc' : a = c := Nat.le_antisymm (Nat.not_lt.mp hcb) (Nat.not_lt.mp hbc)
              subst hbc'
              rw [show natsLe (a :: bs) (a :: cs) = natsLe bs cs from by
                simp [natsLe]] at h2
              simp [natsLe, natsLe_trans as bs cs h1 h2]

instance : IsTotal Link keyLe := ⟨fun a b => natsLe_total (strCodes (sortKey a)) (strCodes (sortKey b))⟩

instance : IsTrans Link keyLe :=
  ⟨fun a b c h h' => natsLe_trans (strCodes (sortKey a)) (strCodes (sortKey b))
    (strCodes (sortKey c)) h h'⟩

/-- Equal sort keys are related by `keyLe` (both ways). -/
theorem keyLe_of_sortKey_eq {a b : Link} (h : sortKey a = sortKey b) : keyLe a b := by
  unfold keyLe strLeB
  rw [h]
  exact natsLe_refl _

/-! ### Stable-sort lemmas

Python's `sorted` is a stable sort; `List.insertionSort` over a total
preorder computes the same result.  The lemmas below are the two facts
the claims need: filtering commutes with a stable sort, and a stable
sort is the identity on lists whose elements are pairwise related (in
particular on lists drawn from a single sort-key class, which is the
formal content of "ties are broken by original order"). -/

section StableSort

variable {α : Type*} (r : α → α → Prop) [DecidableRel r]

theorem filter_orderedInsert [IsTrans α r] (p : α → Bool) (a : α) :
    ∀ l : List α, l.Sorted r →
      (l.orderedInsert r a).filter p =
        if p a then (l.filter p).orderedInsert r a else l.filter p
  | [], _ => by
      by_cases hpa : p a <;>
        simp [List.orderedInsert, List.filter_cons, hpa]
  | b :: t, hs => by
      rcases List.sorted_cons.mp hs with ⟨hb, ht⟩
      rw [List.orderedInsert]
      by_cases hab : r a b
      · rw [if_pos hab]
        by_cases hpa : p a
        · rw [if_pos hpa, List.filter_cons_of_pos hpa]
          cases hf : (b :: t).filter p with
          | nil => simp [List.orderedInsert]
          | cons x xs =>
            have hx : x ∈ (b :: t).filter p := hf ▸ List.mem_cons_self x xs
            have hx' : x ∈ b :: t := List.mem_of_mem_filter hx
            have hax : r a x := by
              rcases List.mem_cons.mp hx' with h | h
              · exact h ▸ hab
              · exact IsTrans.trans a b x hab (hb x h)
            rw [List.orderedInsert_of_le _ _ hax]
        · rw [if_neg hpa, List.filter_cons_of_neg (by simpa using hpa)]
      · rw [if_neg hab]
        by_cases hpb : p b
        · rw [List.filter_cons_of_pos hpb, List.filter_cons_of_pos hpb,
            filter_orderedInsert p a t ht]
          by_cases hpa : p a
          · rw [if_pos hpa, if_pos hpa, List.orderedInsert, if_neg hab]
          · rw [if_neg hpa, if_neg hpa]
        · rw [List.filter_cons_of_neg (by simpa using hpb),
            List.filter_cons_of_neg (by simpa using hpb),
            filter_orderedInsert p a t ht]

theorem filter_insertionSort [IsTotal α r] [IsTrans α r] (p : α → Bool) :
    ∀ l : List α, (l.insertionSort r).filter p = (l.filter p).insertionSort r
  | [] => rfl
  | a :: t => by
      rw [List.insertionSort,
        filter_orderedInsert r p a _ (List.sorted_insertionSort r t),
        filter_insertionSort p t]
      by_cases hpa : p a
      · rw [if_pos hpa, List.filter_cons_of_pos hpa, List.insertionSort]
      · rw [if_neg hpa, List.filter_cons_of_neg (by simpa using hpa)]

theorem insertionSort_id_of_rel :
    ∀ l : List α, (∀ x ∈ l, ∀ y ∈ l, r x y) → l.insertionSort r = l
  | [], _ => rfl
  | a :: t, h => by
      rw [List.insertionSort,
        insertionSort_id_of_rel t (fun x hx y hy =>
          h x (List.mem_cons_of_mem a hx) y (List.mem_cons_of_mem a hy))]
      cases t with
      | nil => rfl
      | cons b t' =>
        exact List.orderedInsert_of_le _ _
          (h a (List.mem_cons_self _ _) b (by simp))

end StableSort

theorem filter_pySorted (p : Link → Bool) (l : List Link) :
    (pySorted l).filter p = pySorted (l.filter p) :=
  filter_insertionSort keyLe p l

theorem filter_pySorted_of_key (p : Link → Bool)
    (hp : ∀ x y, p x → p y → keyLe x y) (l : List Link) :
    (pySorted l).filter p = l.filter p := by
  rw [filter_pySorted]
  exact insertionSort_id_of_rel keyLe _ (fun x hx y hy =>
    hp x y (List.of_mem_filter hx) (List.of_mem_filter hy))

end WlsTui

namespace WlsTui

theorem buildLeaves_eq : ∀ sl : List Link, (∀ l ∈ sl, l.rel.isSome) →
    buildLeaves sl = ((sl.filter navigableB).map mkChildLeaf, none)
  | [], _ => rfl
  | l :: ls, h => by
      obtain ⟨r, hr⟩ := Option.isSome_iff_exists.mp (h l (List.mem_cons_self _ _))
      have hrec := buildLeaves_eq ls (fun x hx => h x (List.mem_cons_of_mem _ hx))
      by_cases hmem : r ∈ structuralRels
      · have hnav : navigableB l = false := by
          simp [navigableB, hr, hmem]
        simp [buildLeaves, hr, hmem, hrec, List.filter_cons, hnav]
      · have hnav : navigableB l = true := by
          simp [navigableB, hr, hmem]
        simp [buildLeaves, hr, hmem, hrec, List.filter_cons, hnav, mkChildLeaf]

theorem populateNode_of_ne (links : List Link) (n : PyTree) (h : n.children ≠ []) :
    populateNode links n = (n, none) := by
  cases n with
  | mk lb d ae cs =>
    have hcs : cs.isEmpty = false := by
      cases cs
      · simp [PyTree.children] at h
      · rfl
    simp [populateNode, hcs]

theorem populateNode_of_empty (links : List Link) (lb : String) (d : Option Link)
    (ae : Bool) (hrel : ∀ l ∈ links, l.rel.isSome) :
    populateNode links (.mk lb d ae []) =
      (.mk lb d
        (if ((pySorted (links.filter navigableB)).map mkChildLeaf).isEmpty then ae else true)
        ((pySorted (links.filter navigableB)).map mkChildLeaf), none) := by
  have h1 : ∀ l ∈ pySorted links, l.rel.isSome := fun l hl =>
    hrel l ((List.mem_insertionSort keyLe).mp hl)
  simp only [populateNode, List.isEmpty_nil, if_pos]
  rw [buildLeaves_eq _ h1, filter_pySorted]

end WlsTui

namespace WlsTui

/-- The populate operation raises nothing when every link has a rel. -/
theorem populateNode_snd_none (links : List Link)
    (hrel : ∀ l ∈ links, l.rel.isSome) (m : PyTree) :
    (populateNode links m).2 = none := by
  cases m with
  | mk lb d ae cs =>
    cases cs with
    | nil =>
      have h1 : ∀ l ∈ pySorted links, l.rel.isSome := fun l hl =>
        hrel l ((List.mem_insertionSort keyLe).mp hl)
      simp [populateNode, buildLeaves_eq _ h1]
    | cons c0 cs' => simp [populateNode]

/-- Every synthesized promoted link carries a rel. -/
theorem expandSpec_rel_isSome (its : List Item) :
    ∀ l ∈ expandSpec its, l.rel.isSome := by
  intro l hl
  simp only [expandSpec, List.mem_flatMap, List.mem_map] at hl
  obtain ⟨it, _, l', _, rfl⟩ := hl
  rfl

/-- Restricting the stable sort to the links of one fixed rel gives the
original subsequence. -/
theorem filter_pySorted_isRelB (r₀ : String) (links : List Link) :
    (pySorted links).filter (isRelB r₀) = links.filter (isRelB r₀) :=
  filter_pySorted_of_key _ (fun x y hx hy => keyLe_of_sortKey_eq (by
    have hx' : x.rel = some r₀ := of_decide_eq_true (by simpa [isRelB] using hx)
    have hy' : y.rel = some r₀ := of_decide_eq_true (by simpa [isRelB] using hy)
    rw [sortKey, sortKey, hx', hy'])) links

theorem getLast?_cons_elim {α β : Type*} (l : α) (xs : List α) (z : β) (f : α → β) :
    ((l :: xs).getLast?).elim z f = (xs.getLast?).elim (f l) f := by
  cases xs with
  | nil => simp
  | cons y ys =>
    rw [List.getLast?_cons_cons]
    cases h : (y :: ys).getLast? with
    | none => simp at h
    | some a => simp

theorem stepInit_parent {l : Link} (acc : InitAcc) {hv : String}
    (hr : l.rel = some "parent") (hh : l.href = some hv) :
    stepInit l acc = ({ acc with pData := some l, pLabel := lastPathSeg hv }, none) := by
  simp [stepInit, hr, hh]

theorem stepInit_self {l : Link} (acc : InitAcc) {hv : String}
    (hr : l.rel = some "self") (hh : l.href = some hv) :
    stepInit l acc = ({ acc with sData := some l, sLabel := lastPathSeg hv }, none) := by
  simp [stepInit, hr, hh]

theorem stepInit_canonical {l : Link} (acc : InitAcc) (hr : l.rel = some "canonical") :
    stepInit l acc = (acc, none) := by
  simp [stepInit, hr]

theorem stepInit_other {l : Link} (acc : InitAcc) {r : String} (hr : l.rel = some r)
    (hp : r ≠ "parent") (hs : r ≠ "self") (hc : r ≠ "canonical") :
    stepInit l acc = ({ acc with leaves := acc.leaves ++ [.mk r (some l) false []] }, none) := by
  simp [stepInit, hr, hp, hs, hc]

theorem buildInit_cons_ok {l : Link} (ls : List Link) {acc acc' : InitAcc}
    (h : stepInit l acc = (acc', none)) :
    buildInit (l :: ls) acc = buildInit ls acc' := by
  simp [buildInit, h]

/-- The final state of the initial-population loop on well-formed links:
the `parent`/`self` fields record the last matching link of the list (a
dict-overwrite per match), and one leaf is appended per navigable
link, in order. -/
theorem buildInit_eq : ∀ (sl : List Link) (acc : InitAcc), (∀ l ∈ sl, wfInitLink l) →
    buildInit sl acc =
      ({ pLabel := ((sl.filter (isRelB "parent")).getLast?).elim acc.pLabel
            (fun l => lastPathSeg (l.href.getD "")),
         pData := ((sl.filter (isRelB "parent")).getLast?).elim acc.pData some,
         sLabel := ((sl.filter (isRelB "self")).getLast?).elim acc.sLabel
            (fun l => lastPathSeg (l.href.getD "")),
         sData := ((sl.filter (isRelB "self")).getLast?).elim acc.sData some,
         leaves := acc.leaves ++ (sl.filter navigableB).map mkInitLeaf }, none)
  | [], acc => by intro _; simp [buildInit]
  | l :: ls, acc => by
      intro h
      obtain ⟨hsome, hhref⟩ := h l (List.mem_cons_self _ _)
      obtain ⟨r, hr⟩ := Option.isSome_iff_exists.mp hsome
      have htail := fun x hx => h x (List.mem_cons_of_mem _ hx)
      by_cases hp : r = "parent"
      · subst hp
        obtain ⟨hv, hh⟩ := Option.isSome_iff_exists.mp (hhref (Or.inl hr))
        have hpt : isRelB "parent" l = true := by simp [isRelB, hr]
        have hst : isRelB "self" l = false := by simp [isRelB, hr]
        have hnv : navigableB l = false := by simp [navigableB, hr, structuralRels]
        rw [buildInit_cons_ok ls (stepInit_parent acc hr hh), buildInit_eq ls _ htail]
        simp [List.filter_cons, hpt, hst, hnv, getLast?_cons_elim, hh]
      · by_cases hsf : r = "self"
        · subst hsf
          obtain ⟨hv, hh⟩ := Option.isSome_iff_exists.mp (hhref (Or.inr hr))
          have hpt : isRelB "parent" l = false := by simp [isRelB, hr]
          have hst : isRelB "self" l = true := by simp [isRelB, hr]
          have hnv : navigableB l = false := by simp [navigableB, hr, structuralRels]
          rw [buildInit_cons_ok ls (stepInit_self acc hr hh), buildInit_eq ls _ htail]
          simp [List.filter_cons, hpt, hst, hnv, getLast?_cons_elim, hh]
        · by_cases hc : r = "canonical"
          · subst hc
            have hpt : isRelB "parent" l = false := by simp [isRelB, hr]
            have hst : isRelB "self" l = false := by simp [isRelB, hr]
            have hnv : navigableB l = false := by simp [navigableB, hr, structuralRels]
            rw [buildInit_cons_ok ls (stepInit_canonical acc hr), buildInit_eq ls _ htail]
            simp [List.filter_cons, hpt, hst, hnv]
          · have hpt : isRelB "parent" l = false := by simp [isRelB, hr, hp]
            have hst : isRelB "self" l = false := by simp [isRelB, hr, hsf]
            have hnv : navigableB l = true := by
              simp [navigableB, hr, structuralRels, hp, hsf, hc]
            rw [buildInit_cons_ok ls (stepInit_other acc hr hp hsf hc), buildInit_eq ls _ htail]
            simp [List.filter_cons, hpt, hst, hnv, mkInitLeaf, hr]

end WlsTui

namespace WlsTui

theorem buildInit_cons_err {l : Link} (ls : List Link) {acc acc' : InitAcc} {e : PyError}
    (h : stepInit l acc = (acc', some e)) :
    buildInit (l :: ls) acc = (acc', some e) := by
  simp [buildInit, h]

/-- Any leaf the initial-population step adds carries a non-structural
rel. -/
theorem stepInit_leaves_sub (l : Link) (acc : InitAcc) :
    ∀ c ∈ (stepInit l acc).1.leaves,
      c ∈ acc.leaves ∨ ∀ r ∈ structuralRels, leafRel c ≠ some r := by
  intro c hc
  cases hrel : l.rel with
  | none => rw [show (stepInit l acc).1 = acc from by simp [stepInit, hrel]] at hc; exact Or.inl hc
  | some r =>
    by_cases hp : r = "parent"
    · subst hp
      cases hh : l.href with
      | none => rw [show (stepInit l acc).1.leaves = acc.leaves from by simp [stepInit, hrel, hh]] at hc; exact Or.inl hc
      | some hv => rw [show (stepInit l acc).1.leaves = acc.leaves from by simp [stepInit, hrel, hh]] at hc; exact Or.inl hc
    · by_cases hs : r = "self"
      · subst hs
        cases hh : l.href with
        | none => rw [show (stepInit l acc).1.leaves = acc.leaves from by simp [stepInit, hrel, hh, hp]] at hc; exact Or.inl hc
        | some hv => rw [show (stepInit l acc).1.leaves = acc.leaves from by simp [stepInit, hrel, hh, hp]] at hc; exact Or.inl hc
      · by_cases hcn : r = "canonical"
        · subst hcn
          rw [show (stepInit l acc).1 = acc from by simp [stepInit, hrel, hp, hs]] at hc
          exact Or.inl hc
        · rw [show (stepInit l acc).1.leaves = acc.leaves ++ [.mk r (some l) false []] from by
            simp [stepInit, hrel, hp, hs, hcn]] at hc
          rcases List.mem_append.mp hc with h' | h'
          · exact Or.inl h'
          · refine Or.inr fun r' hr' heq => ?_
            have hc1 := List.mem_singleton.mp h'
            subst hc1
            have hrr : r = r' := by simpa [leafRel, PyTree.data, hrel] using heq
            subst hrr
            simp [structuralRels] at hr'
            rcases hr' with h | h | h
            exacts [hp h, hs h, hcn h]

/-- Leaves of the whole initial-population loop: either inherited from
the accumulator or non-structural (holds on error paths too). -/
theorem buildInit_leaves_sub : ∀ (sl : List Link) (acc : InitAcc),
    ∀ c ∈ (buildInit sl acc).1.leaves,
      c ∈ acc.leaves ∨ ∀ r ∈ structuralRels, leafRel c ≠ some r
  | [], acc => by
      intro c hc
      rw [show (buildInit [] acc).1 = acc from rfl] at hc
      exact Or.inl hc
  | l :: ls, acc => by
      intro c hc
      rcases hstep : stepInit l acc with ⟨acc', e⟩
      cases e with
      | none =>
        rw [buildInit_cons_ok ls hstep] at hc
        rcases buildInit_leaves_sub ls acc' c hc with h' | h'
        · have := stepInit_leaves_sub l acc c (by rw [hstep]; exact h')
          exact this
        · exact Or.inr h'
      | some e' =>
        rw [buildInit_cons_err ls hstep] at hc
        exact stepInit_leaves_sub l acc c (by rw [hstep]; exact hc)

/-- Every leaf the child-population loop produces (also on error paths)
carries a non-structural rel. -/
theorem buildLeaves_rels : ∀ sl : List Link,
    ∀ c ∈ (buildLeaves sl).1, ∀ r ∈ structuralRels, leafRel c ≠ some r
  | [] => by simp [buildLeaves]
  | l :: ls => by
      intro c hc
      cases hrel : l.rel with
      | none => simp [buildLeaves, hrel] at hc
      | some r =>
        by_cases hmem : r ∈ structuralRels
        · rw [show (buildLeaves (l :: ls)).1 = (buildLeaves ls).1 from by
            simp [buildLeaves, hrel, hmem]] at hc
          exact buildLeaves_rels ls c hc
        · rw [show (buildLeaves (l :: ls)).1
              = .mk (childLabel r l) (some l) false [] :: (buildLeaves ls).1 from by
            simp [buildLeaves, hrel, hmem]] at hc
          rcases List.mem_cons.mp hc with rfl | hc'
          · intro r' hr' heq
            have hrr : r = r' := by simpa [leafRel, PyTree.data, hrel] using heq
            exact hmem (hrr ▸ hr')
          · exact buildLeaves_rels ls c hc'

end WlsTui

namespace WlsTui

/-- The inner promotion loop on a document that has a `links` list:
appends one synthesized link per `canonical` link of the item. -/
theorem promoLinks_some_eq (name : Option String) :
    ∀ (ils : List Link) (cur : List Link), (∀ l ∈ ils, wfItemLink l) →
      promoLinks name ils (some cur) =
        (some (cur ++ (ils.filter (isRelB "canonical")).map
          (fun l => { rel := some (name.getD "item"), href := l.href, title := none })), none)
  | [], cur, _ => by simp [promoLinks]
  | l :: ls, cur, h => by
      obtain ⟨hsome, hhref⟩ := h l (List.mem_cons_self _ _)
      obtain ⟨r, hr⟩ := Option.isSome_iff_exists.mp hsome
      have htail := fun x hx => h x (List.mem_cons_of_mem _ hx)
      by_cases hcn : r = "canonical"
      · subst hcn
        obtain ⟨hv, hh⟩ := Option.isSome_iff_exists.mp (hhref hr)
        have hflt : isRelB "canonical" l = true := by simp [isRelB, hr]
        rw [show promoLinks name (l :: ls) (some cur)
            = promoLinks name ls
              (some (cur ++ [{ rel := some (name.getD "item"), href := some hv }])) from by
          simp [promoLinks, hr, hh]]
        rw [promoLinks_some_eq name ls _ htail]
        simp [List.filter_cons, hflt, hh]
      · have hflt : isRelB "canonical" l = false := by simp [isRelB, hr, hcn]
        rw [show promoLinks name (l :: ls) (some cur) = promoLinks name ls (some cur) from by
          simp [promoLinks, hr, hcn]]
        rw [promoLinks_some_eq name ls _ htail]
        simp [List.filter_cons, hflt]

/-- The whole promotion loop on a document that has a `links` list:
appends exactly `expandSpec` to it. -/
theorem promoteItems_some_eq : ∀ (its : List Item) (cur : List Link),
    (∀ it ∈ its, wfItem it) →
    promoteItems its (some cur) = (some (cur ++ expandSpec its), none)
  | [], cur, _ => by simp [promoteItems, expandSpec]
  | it :: its, cur, h => by
      have htail := fun x hx => h x (List.mem_cons_of_mem _ hx)
      have hit := h it (List.mem_cons_self _ _)
      cases hl : it.links with
      | none =>
        rw [show promoteItems (it :: its) (some cur) = promoteItems its (some cur) from by
          simp [promoteItems, hl]]
        rw [promoteItems_some_eq its cur htail]
        simp [expandSpec, hl]
      | some ils =>
        have hwf : ∀ l ∈ ils, wfItemLink l := by
          intro l hml
          exact hit l (by rw [hl]; simpa using hml)
        rw [show promoteItems (it :: its) (some cur)
            = promoteItems its (some (cur ++ (ils.filter (isRelB "canonical")).map
                (fun l => { rel := some (it.name.getD "item"), href := l.href, title := none }))) from by
          simp [promoteItems, hl, promoLinks_some_eq it.name ils cur hwf]]
        rw [promoteItems_some_eq its _ htail]
        simp only [expandSpec, List.flatMap_cons, Option.getD_some, hl, List.append_assoc]
        rfl

/-- The inner promotion loop never touches a missing `links` list when
the item has no canonical link. -/
theorem promoLinks_none_of_no_canonical (name : Option String) :
    ∀ ils : List Link, (∀ l ∈ ils, l.rel.isSome) →
      (∀ l ∈ ils, l.rel ≠ some "canonical") → promoLinks name ils none = (none, none)
  | [], _, _ => by simp [promoLinks]
  | l :: ls, h, hn => by
      obtain ⟨r, hr⟩ := Option.isSome_iff_exists.mp (h l (List.mem_cons_self _ _))
      have hcn : r ≠ "canonical" := fun hcc => hn l (List.mem_cons_self _ _) (by rw [hr, hcc])
      rw [show promoLinks name (l :: ls) none = promoLinks name ls none from by
        simp [promoLinks, hr, hcn]]
      exact promoLinks_none_of_no_canonical name ls
        (fun x hx => h x (List.mem_cons_of_mem _ hx))
        (fun x hx => hn x (List.mem_cons_of_mem _ hx))

/-- The inner promotion loop raises `KeyError('links')` at the first
canonical link when the document lacks a `links` key. -/
theorem promoLinks_none_of_canonical (name : Option String) :
    ∀ ils : List Link, (∀ l ∈ ils, wfItemLink l) →
      (∃ l ∈ ils, l.rel = some "canonical") →
      promoLinks name ils none = (none, some (.keyError "links"))
  | [], _, hex => by simp at hex
  | l :: ls, h, hex => by
      obtain ⟨hsome, hhref⟩ := h l (List.mem_cons_self _ _)
      obtain ⟨r, hr⟩ := Option.isSome_iff_exists.mp hsome
      by_cases hcn : r = "canonical"
      · subst hcn
        obtain ⟨hv, hh⟩ := Option.isSome_iff_exists.mp (hhref hr)
        simp [promoLinks, hr, hh]
      · have hex' : ∃ x ∈ ls, x.rel = some "canonical" := by
          rcases hex with ⟨x, hx, hxc⟩
          rcases List.mem_cons.mp hx with rfl | hx'
          · rw [hr] at hxc
            exact absurd (Option.some.inj hxc) hcn
          · exact ⟨x, hx', hxc⟩
        rw [show promoLinks name (l :: ls) none = promoLinks name ls none from by
          simp [promoLinks, hr, hcn]]
        exact promoLinks_none_of_canonical name ls
          (fun x hx => h x (List.mem_cons_of_mem _ hx)) hex'

end WlsTui

namespace WlsTui

/-- Promotion over a document without `links`: a no-op when no item has
a canonical link. -/
theorem promoteItems_none_of_no_canonical : ∀ its : List Item,
    (∀ it ∈ its, ∀ l ∈ it.links.getD [], l.rel.isSome) →
    (∀ it ∈ its, ∀ l ∈ it.links.getD [], l.rel ≠ some "canonical") →
    promoteItems its none = (none, none)
  | [], _, _ => by simp [promoteItems]
  | it :: its, h, hn => by
      have htail := fun x hx => h x (List.mem_cons_of_mem _ hx)
      have hntail := fun x hx => hn x (List.mem_cons_of_mem _ hx)
      cases hl : it.links with
      | none =>
        rw [show promoteItems (it :: its) none = promoteItems its none from by
          simp [promoteItems, hl]]
        exact promoteItems_none_of_no_canonical its htail hntail
      | some ils =>
        have h1 : ∀ l ∈ ils, l.rel.isSome := fun l hml =>
          h it (List.mem_cons_self _ _) l (by rw [hl]; simpa using hml)
        have h2 : ∀ l ∈ ils, l.rel ≠ some "canonical" := fun l hml =>
          hn it (List.mem_cons_self _ _) l (by rw [hl]; simpa using hml)
        rw [show promoteItems (it :: its) none = promoteItems its none from by
          simp [promoteItems, hl, promoLinks_none_of_no_canonical it.name ils h1 h2]]
        exact promoteItems_none_of_no_canonical its htail hntail

/-- Promotion over a document without `links`: raises
`KeyError('links')` as soon as some item has a canonical link. -/
theorem promoteItems_none_of_canonical : ∀ its : List Item,
    (∀ it ∈ its, wfItem it) →
    (∃ it ∈ its, ∃ l ∈ it.links.getD [], l.rel = some "canonical") →
    promoteItems its none = (none, some (.keyError "links"))
  | [], _, hex => by simp at hex
  | it :: its, h, hex => by
      have htail := fun x hx => h x (List.mem_cons_of_mem _ hx)
      have hit := h it (List.mem_cons_self _ _)
      cases hl : it.links with
      | none =>
        have hex' : ∃ x ∈ its, ∃ l ∈ x.links.getD [], l.rel = some "canonical" := by
          rcases hex with ⟨x, hx, hwit⟩
          rcases List.mem_cons.mp hx with rfl | hx'
          · rw [hl] at hwit; simp at hwit
          · exact ⟨x, hx', hwit⟩
        rw [show promoteItems (it :: its) none = promoteItems its none from by
          simp [promoteItems, hl]]
        exact promoteItems_none_of_canonical its htail hex'
      | some ils =>
        have hwf : ∀ l ∈ ils, wfItemLink l := fun l hml =>
          hit l (by rw [hl]; simpa using hml)
        by_cases hexi : ∃ l ∈ ils, l.rel = some "canonical"
        · simp [promoteItems, hl, promoLinks_none_of_canonical it.name ils hwf hexi]
        · have h1 : ∀ l ∈ ils, l.rel.isSome := fun l hml => (hwf l hml).1
          have h2 : ∀ l ∈ ils, l.rel ≠ some "canonical" := by
            intro l hml hcc
            exact hexi ⟨l, hml, hcc⟩
          have hex' : ∃ x ∈ its, ∃ l ∈ x.links.getD [], l.rel = some "canonical" := by
            rcases hex with ⟨x, hx, hwit⟩
            rcases List.mem_cons.mp hx with rfl | hx'
            · rw [hl] at hwit
              rcases hwit with ⟨l, hml, hcc⟩
              exact absurd hcc (h2 l (by simpa using hml))
            · exact ⟨x, hx', hwit⟩
          rw [show promoteItems (it :: its) none = promoteItems its none from by
            simp [promoteItems, hl, promoLinks_none_of_no_canonical it.name ils h1 h2]]
          exact promoteItems_none_of_canonical its htail hex'

/-- Addressing a node after an in-place update at the same path. -/
theorem getNode_modifyAtE : ∀ (path : List Nat) (t : PyTree)
    (f : PyTree → PyTree × Option PyError) (n : PyTree),
    getNode t path = some n →
      getNode (modifyAtE t path f).1 path = some (f n).1
      ∧ (modifyAtE t path f).2 = (f n).2
  | [], t, f, n => by
      intro h
      rw [show n = t from (Option.some.inj (by simpa [getNode] using h)).symm]
      exact ⟨by simp [getNode, modifyAtE], by simp [modifyAtE]⟩
  | i :: p, .mk lb d ae cs, f, n => by
      intro h
      cases hci : cs[i]? with
      | none => rw [show getNode (.mk lb d ae cs) (i :: p) = none from by
          simp [getNode, hci]] at h; exact absurd h (by simp)
      | some c =>
        have h' : getNode c p = some n := by
          rw [show getNode (.mk lb d ae cs) (i :: p) = getNode c p from by
            simp [getNode, hci]] at h
          exact h
        have ih := getNode_modifyAtE p c f n h'
        have hb : i < cs.length := (List.getElem?_eq_some.mp hci).1
        constructor
        · rw [show (modifyAtE (.mk lb d ae cs) (i :: p) f).1
              = .mk lb d ae (cs.set i (modifyAtE c p f).1) from by
            simp [modifyAtE, hci]]
          rw [show getNode (.mk lb d ae (cs.set i (modifyAtE c p f).1)) (i :: p)
              = getNode (modifyAtE c p f).1 p from by
            simp [getNode, List.getElem?_set_self hb]]
          exact ih.1
        · rw [show (modifyAtE (.mk lb d ae cs) (i :: p) f).2 = (modifyAtE c p f).2 from by
            simp [modifyAtE, hci]]
          exact ih.2

/-- An update whose worker never raises never raises. -/
theorem modifyAtE_snd_none (f : PyTree → PyTree × Option PyError)
    (hf : ∀ m, (f m).2 = none) : ∀ (path : List Nat) (t : PyTree),
    (modifyAtE t path f).2 = none
  | [], t => hf t
  | i :: p, .mk lb d ae cs => by
      cases hci : cs[i]? with
      | none => simp [modifyAtE, hci]
      | some c =>
        rw [show (modifyAtE (.mk lb d ae cs) (i :: p) f).2 = (modifyAtE c p f).2 from by
          simp [modifyAtE, hci]]
        exact modifyAtE_snd_none f hf p c

end WlsTui

namespace WlsTui

theorem failWith_tree (s : String) (st : AppState) : (failWith s st).tree = st.tree := rfl

theorem failWith_fetchLog (s : String) (st : AppState) :
    (failWith s st).fetchLog = st.fetchLog := rfl

theorem failWith_output (s : String) (st : AppState) :
    (failWith s st).output = .errText (fmtErr s) := rfl

theorem finishOutput_tree (d : Document) (st : AppState) :
    (finishOutput d st).tree = st.tree := rfl

theorem finishOutput_fetchLog (d : Document) (st : AppState) :
    (finishOutput d st).fetchLog = st.fetchLog := rfl

theorem finishOutput_output (d : Document) (st : AppState) :
    (finishOutput d st).output
      = .jsonDoc (if st.unclutter then { d with links := none } else d) := rfl

theorem continueLinks_fetchLog (d : Document) (path : List Nat) (st : AppState) :
    (continueLinks d path st).fetchLog = st.fetchLog := by
  unfold continueLinks
  cases hd : d.links with
  | none => rfl
  | some ls =>
    dsimp only
    rcases hm : modifyAtE st.tree path (populateNode ls) with ⟨t, e⟩
    cases e <;> rfl

theorem fetchSuccess_fetchLog (d : Document) (uri : String) (cur : Option (List Nat))
    (st : AppState) : (fetchSuccess d uri cur st).fetchLog = st.fetchLog := by
  unfold fetchSuccess
  cases cur with
  | none =>
    dsimp only
    rcases hi : addLinksNodeInit (d.links.getD []) with ⟨t, e⟩
    cases e <;> rfl
  | some path =>
    dsimp only
    cases hd : d.items with
    | none => exact continueLinks_fetchLog d path _
    | some its =>
      dsimp only
      rcases hp : promoteItems its d.links with ⟨dl, e⟩
      cases e with
      | none => exact continueLinks_fetchLog _ path _
      | some e' => rfl

theorem getNode_setAllowExpandAt (t : PyTree) (path : List Nat) (n : PyTree)
    (h : getNode t path = some n) :
    getNode (setAllowExpandAt t path) path = some (.mk n.label n.data true n.children) :=
  (getNode_modifyAtE path t _ n h).1

theorem continueLinks_children (d : Document) (path : List Nat) (st : AppState)
    (n : PyTree) (hget : getNode st.tree path = some n) (hne : n.children ≠ []) :
    ∃ n', getNode (continueLinks d path st).tree path = some n'
      ∧ n'.children = n.children := by
  unfold continueLinks
  cases hd : d.links with
  | none => exact ⟨n, hget, rfl⟩
  | some ls =>
    dsimp only
    rcases hm : modifyAtE st.tree path (populateNode ls) with ⟨t, e⟩
    have h2 := getNode_modifyAtE path st.tree (populateNode ls) n hget
    rw [hm, populateNode_of_ne ls n hne] at h2
    obtain ⟨h21, h22⟩ := h2
    cases e with
    | none => exact ⟨n, h21, rfl⟩
    | some pe => exact absurd h22 (by simp)

theorem fetchSuccess_children (d : Document) (uri : String) (path : List Nat)
    (st : AppState) (n : PyTree) (hget : getNode st.tree path = some n)
    (hne : n.children ≠ []) :
    ∃ n', getNode (fetchSuccess d uri (some path) st).tree path = some n'
      ∧ n'.children = n.children := by
  unfold fetchSuccess
  dsimp only
  cases hd : d.items with
  | none => exact continueLinks_children d path _ n hget hne
  | some its =>
    dsimp only
    rcases hp : promoteItems its d.links with ⟨dl, e⟩
    cases e with
    | some e' => exact ⟨n, hget, rfl⟩
    | none =>
      dsimp only
      have hg2 := getNode_setAllowExpandAt st.tree path n hget
      have hne2 : (PyTree.mk n.label n.data true n.children).children ≠ [] := by
        simpa [PyTree.children] using hne
      obtain ⟨n', hn', hch⟩ := continueLinks_children
        { links := dl, items := some its, rest := d.rest } path
        { tree := setAllowExpandAt st.tree path, breadcrumb := uri, output := st.output,
          unclutter := st.unclutter, fetchLog := st.fetchLog }
        (PyTree.mk n.label n.data true n.children) hg2 hne2
      exact ⟨n', hn', by simpa [PyTree.children] using hch⟩

end WlsTui

namespace WlsTui

/-- C1: idempotent population — once a tree node has children, running
`add_links_node(links, node)` (the populate operation) again with any
link list leaves the node, in particular its children, unchanged, and
raises nothing. -/
theorem C1_populate_idempotent (links : List Link) (n : PyTree)
    (h : n.children ≠ []) : populateNode links n = (n, none) :=
  populateNode_of_ne links n h

theorem C1_witness :
    populateNode [{ rel := some "x", href := some "/x" }]
        (.mk "orders" none true [.mk "o1" none false []])
      = (.mk "orders" none true [.mk "o1" none false []], none) :=
  C1_populate_idempotent _ _ (by simp [PyTree.children])

/-- C2 counterexample: selecting an already-populated node (it has a
child) whose link carries an href issues a new fetch — the fetch log
grows by one entry — contradicting "never issues a new fetch". -/
theorem C2_counterexample :
    (getNode
        (AppState.mk
          (.mk "Links" none true [.mk "parent" none true [.mk "api" none true
            [.mk "orders" (some { rel := some "orders", href := some "/api/orders" }) true
              [.mk "o1" none false []]]]])
          "/api" (.jsonDoc {}) true []).tree [0, 0, 0]).map PyTree.children
      = some [.mk "o1" none false []]
    ∧ (onTreeNodeSelected (fun _ => .ok {})
        (AppState.mk
          (.mk "Links" none true [.mk "parent" none true [.mk "api" none true
            [.mk "orders" (some { rel := some "orders", href := some "/api/orders" }) true
              [.mk "o1" none false []]]]])
          "/api" (.jsonDoc {}) true []) [0, 0, 0]).fetchLog
      = ["/api/orders"] :=
  ⟨rfl, rfl⟩

/-- C2 (amended): selecting an already-populated node (nonempty
children) whose stored link carries an href issues exactly one new fetch
of that href, but never re-derives the node's children: they are
unchanged afterwards. -/
theorem C2_refetch_but_no_rederive (fetcher : String → Except FetchError Document)
    (st : AppState) (path : List Nat) (n : PyTree) (link : Link) (h : String)
    (hget : getNode st.tree path = some n) (hne : n.children ≠ [])
    (hdata : n.data = some link) (hhref : link.href = some h) :
    (∃ n', getNode (onTreeNodeSelected fetcher st path).tree path = some n'
      ∧ n'.children = n.children)
    ∧ (onTreeNodeSelected fetcher st path).fetchLog = st.fetchLog ++ [h] := by
  unfold onTreeNodeSelected
  rw [hget]
  dsimp only
  rw [hdata]
  dsimp only
  rw [hhref]
  dsimp only
  unfold fetchAndUpdate
  cases hres : fetcher h with
  | error e =>
    dsimp only
    exact ⟨⟨n, hget, rfl⟩, rfl⟩
  | ok data =>
    dsimp only
    constructor
    · exact fetchSuccess_children data h path _ n hget hne
    · rw [fetchSuccess_fetchLog]

theorem C2_refetch_witness :
    (∃ n', getNode (onTreeNodeSelected (fun _ => .ok {})
        (AppState.mk (.mk "Links" none true [.mk "orders"
          (some { rel := some "orders", href := some "/api/orders" }) true
          [.mk "o1" none false []]]) "" (.jsonDoc {}) true []) [0]).tree [0] = some n'
      ∧ n'.children = [.mk "o1" none false []])
    ∧ (onTreeNodeSelected (fun _ => .ok {})
        (AppState.mk (.mk "Links" none true [.mk "orders"
          (some { rel := some "orders", href := some "/api/orders" }) true
          [.mk "o1" none false []]]) "" (.jsonDoc {}) true []) [0]).fetchLog
      = ["/api/orders"] :=
  C2_refetch_but_no_rederive (fun _ => .ok {}) _ [0]
    (.mk "orders" (some { rel := some "orders", href := some "/api/orders" }) true
      [.mk "o1" none false []])
    { rel := some "orders", href := some "/api/orders" } "/api/orders"
    rfl (by simp [PyTree.children]) rfl rfl

/-- C7: atomic failure — when the fetch itself fails (network error,
non-2xx status, or JSON decode error), the tree is not mutated at all,
the breadcrumb keeps its previous value, and the output panels show
exactly the formatted failure reason. -/
theorem C7_atomic_failure (e : FetchError) (uri : String) (cur : Option (List Nat))
    (st : AppState) :
    (fetchAndUpdate (.error e) uri cur st).tree = st.tree
    ∧ (fetchAndUpdate (.error e) uri cur st).breadcrumb = st.breadcrumb
    ∧ (fetchAndUpdate (.error e) uri cur st).output = .errText (fmtErr e.pyStr) :=
  ⟨rfl, rfl, rfl⟩

end WlsTui

namespace WlsTui

/-- C3: structural exclusion — links whose rel is `parent`, `self` or
`canonical` never appear as independent child leaves: not among the
leaves attached under the `self` node by the initial population (on
error paths included), and every child the populate operation adds to a
selected node carries a non-structural rel. -/
theorem C3_structural_exclusion (links : List Link) :
    (∀ c ∈ selfLeaves (addLinksNodeInit links).1, ∀ r ∈ structuralRels, leafRel c ≠ some r)
    ∧ ∀ n : PyTree, ∀ c ∈ (populateNode links n).1.children,
        c ∈ n.children ∨ ∀ r ∈ structuralRels, leafRel c ≠ some r := by
  constructor
  · intro c hc
    have hsl : selfLeaves (addLinksNodeInit links).1
        = (buildInit (pySorted links) {}).1.leaves := by
      unfold addLinksNodeInit
      rcases buildInit (pySorted links) {} with ⟨acc, e⟩
      rfl
    rw [hsl] at hc
    rcases buildInit_leaves_sub (pySorted links) {} c hc with h' | h'
    · simp [InitAcc.leaves] at h'
    · exact h'
  · intro n c hc
    cases n with
    | mk lb d ae cs =>
      cases cs with
      | nil =>
        have hch : (populateNode links (.mk lb d ae [])).1.children
            = (buildLeaves (pySorted links)).1 := by
          unfold populateNode
          dsimp only
          rcases buildLeaves (pySorted links) with ⟨ls, e⟩
          rfl
        rw [hch] at hc
        exact Or.inr (buildLeaves_rels _ c hc)
      | cons c0 cs' =>
        rw [show (populateNode links (.mk lb d ae (c0 :: cs'))).1
            = .mk lb d ae (c0 :: cs') from by simp [populateNode]] at hc
        exact Or.inl hc

theorem C3_witness :
    leafRel (.mk "orders" (some { rel := some "orders", href := some "/api/orders" }) false [])
      ≠ some "parent" :=
  (C3_structural_exclusion
      [{ rel := some "parent", href := some "/a" },
       { rel := some "orders", href := some "/api/orders" },
       { rel := some "canonical", href := some "/c" }]).1
    (.mk "orders" (some { rel := some "orders", href := some "/api/orders" }) false [])
    (by rw [show selfLeaves (addLinksNodeInit
        [{ rel := some "parent", href := some "/a" },
         { rel := some "orders", href := some "/api/orders" },
         { rel := some "canonical", href := some "/c" }]).1
        = [.mk "orders" (some { rel := some "orders", href := some "/api/orders" }) false []]
      from rfl]
        exact List.mem_singleton.mpr rfl)
    "parent" (by simp [structuralRels])

end WlsTui

namespace WlsTui

/-- C4: sort order — the children attached by the populate operation are
exactly the navigable links sorted by casefolded rel ascending (code
points), the resulting sequence is sorted under that comparison, ties
keep the original order (the sorted list restricted to any one sort key
equals the input restricted to it), and the rels `["Zeta","alpha","Beta"]`
produce children labelled `["alpha","Beta","Zeta"]`. -/
theorem C4_sort_order (links : List Link) (lb : String) (d : Option Link) (ae : Bool)
    (hrel : ∀ l ∈ links, (l.rel).isSome) :
    ((populateNode links (.mk lb d ae [])).1.children.map PyTree.data
        = (pySorted (links.filter navigableB)).map some)
    ∧ (pySorted (links.filter navigableB)).Sorted keyLe
    ∧ (∀ k : String, (pySorted (links.filter navigableB)).filter (fun l => sortKey l = k)
        = (links.filter navigableB).filter (fun l => sortKey l = k))
    ∧ (populateNode [{ rel := some "Zeta" }, { rel := some "alpha" }, { rel := some "Beta" }]
        (.mk "node" none false [])).1.children.map PyTree.label
      = ["alpha", "Beta", "Zeta"] := by
  refine ⟨?_, ?_, ?_, ?_⟩
  · rw [populateNode_of_empty links lb d ae hrel]
    simp only [PyTree.children, List.map_map]
    rfl
  · exact List.sorted_insertionSort keyLe _
  · intro k
    refine filter_pySorted_of_key _ (fun x y hx hy => keyLe_of_sortKey_eq ?_) _
    rw [of_decide_eq_true hx, of_decide_eq_true hy]
  · rfl

theorem C4_witness :
    ((populateNode [{ rel := some "Zeta", href := some "/z" }, { rel := some "self" }]
        (.mk "n" none false [])).1.children.map PyTree.data
      = (pySorted ([{ rel := some "Zeta", href := some "/z" }, { rel := some "self" }].filter
          navigableB)).map some) :=
  (C4_sort_order [{ rel := some "Zeta", href := some "/z" }, { rel := some "self" }]
    "n" none false (by decide)).1

end WlsTui

namespace WlsTui

/-- C5 counterexample: an unnamed item whose links hold two canonical
entries contributes two promoted links, both with rel the literal string
"item" — not exactly one link with rel "0" (the positional index), as
the claim states. -/
theorem C5_counterexample :
    promoteItems [{ name := none,
                    links := some [{ rel := some "canonical", href := some "/a" },
                      { rel := some "canonical", href := some "/b" }] }] (some [])
      = (some [{ rel := some "item", href := some "/a" },
               { rel := some "item", href := some "/b" }], none)
    ∧ ({ rel := some "item", href := some "/a" } : Link).rel ≠ some "0" :=
  ⟨rfl, by decide⟩

/-- C5 (amended): each canonical link of each item — one per canonical
link, not one per item — contributes a synthesized link whose rel is the
item's name with fallback the literal string "item" (not the positional
index) and whose href is that canonical link's href; items without
canonical links contribute nothing, and the synthesized links are
appended in order to the document's links; the named example from P4
still yields `[{rel:"order1", href:"/o/1"}]`. -/
theorem C5_item_promotion (its : List Item) (ls : List Link)
    (hwf : ∀ it ∈ its, wfItem it) :
    promoteItems its (some ls) = (some (ls ++ expandSpec its), none)
    ∧ promoteItems [{ name := some "order1",
                      links := some [{ rel := some "canonical", href := some "/o/1" }] }]
        (some [])
      = (some [{ rel := some "order1", href := some "/o/1" }], none)
    ∧ expandSpec [{ name := some "order1",
                    links := some [{ rel := some "canonical", href := some "/o/1" }] }]
      = [{ rel := some "order1", href := some "/o/1" }] :=
  ⟨promoteItems_some_eq its ls hwf, rfl, rfl⟩

theorem C5_witness :
    promoteItems [{ name := none,
                    links := some [{ rel := some "canonical", href := some "/x" }] }]
        (some [])
      = (some ([] ++ expandSpec [{ name := none,
                                    links := some [{ rel := some "canonical", href := some "/x" }] }]), none) :=
  (C5_item_promotion _ [] (by decide)).1

/-- C6 counterexample: with two parent links the SECOND one ends up as
the parent node's data — the first is overwritten — contradicting the
claimed first-match rule. -/
theorem C6_counterexample :
    (parentNodeOf (addLinksNodeInit
        [{ rel := some "parent", href := some "/a" },
         { rel := some "parent", href := some "/b" }]).1).data
      = some { rel := some "parent", href := some "/b" }
    ∧ (some { rel := some "parent", href := some "/b" } : Option Link)
      ≠ some { rel := some "parent", href := some "/a" } :=
  ⟨rfl, by decide⟩

/-- C6 (amended): with several parent (resp. self) links, the LAST such
link in the input order is taken — each match overwrites the node's
data, and the stable sort preserves the relative order of links sharing
a rel — and later duplicates are the ones that survive, not the first. -/
theorem C6_last_match (links : List Link) (hwf : ∀ l ∈ links, wfInitLink l) :
    (parentNodeOf (addLinksNodeInit links).1).data
      = (links.filter (isRelB "parent")).getLast?
    ∧ (selfNodeOf (addLinksNodeInit links).1).data
      = (links.filter (isRelB "self")).getLast? := by
  have hwf' : ∀ l ∈ pySorted links, wfInitLink l := fun l hl =>
    hwf l ((List.mem_insertionSort keyLe).mp hl)
  have hbe := buildInit_eq (pySorted links) {} hwf'
  constructor
  · rw [show (parentNodeOf (addLinksNodeInit links).1).data
        = (buildInit (pySorted links) {}).1.pData from by
      unfold addLinksNodeInit
      rcases buildInit (pySorted links) {} with ⟨acc, e⟩
      rfl]
    rw [hbe]
    dsimp only
    rw [filter_pySorted_isRelB]
    cases (links.filter (isRelB "parent")).getLast? <;> rfl
  · rw [show (selfNodeOf (addLinksNodeInit links).1).data
        = (buildInit (pySorted links) {}).1.sData from by
      unfold addLinksNodeInit
      rcases buildInit (pySorted links) {} with ⟨acc, e⟩
      rfl]
    rw [hbe]
    dsimp only
    rw [filter_pySorted_isRelB]
    cases (links.filter (isRelB "self")).getLast? <;> rfl

theorem C6_witness :
    (parentNodeOf (addLinksNodeInit
        [{ rel := some "parent", href := some "/p1" },
         { rel := some "parent", href := some "/p2" },
         { rel := some "x", href := some "/x" }]).1).data
      = ([{ rel := some "parent", href := some "/p1" },
          { rel := some "parent", href := some "/p2" },
          { rel := some "x", href := some "/x" }].filter (isRelB "parent")).getLast? :=
  (C6_last_match _ (by decide)).1

end WlsTui

namespace WlsTui

/-- C9 counterexample: on the initial population of links
`[self → "/api/orders/", action (title "T") → "/x"]` the parent node
keeps its default label `"parent"` although no parent link exists (the
claim says empty), the self node is labelled with the empty last path
segment of the trailing-slash href (the claim says the last NON-empty
segment, `"orders"`), and the action child is labelled plain `"action"`
(the claim says `"action (T)"`). -/
theorem C9_counterexample :
    (parentNodeOf (addLinksNodeInit
        [{ rel := some "self", href := some "/api/orders/" },
         { rel := some "action", href := some "/x", title := some "T" }]).1).label
      = "parent"
    ∧ ("parent" : String) ≠ ""
    ∧ (selfNodeOf (addLinksNodeInit
        [{ rel := some "self", href := some "/api/orders/" },
         { rel := some "action", href := some "/x", title := some "T" }]).1).label
      = ""
    ∧ ("" : String) ≠ "orders"
    ∧ (selfNodeOf (addLinksNodeInit
        [{ rel := some "self", href := some "/api/orders/" },
         { rel := some "action", href := some "/x", title := some "T" }]).1).children.map
          PyTree.label
      = ["action"]
    ∧ ("action" : String) ≠ "action (T)" :=
  ⟨rfl, by decide, rfl, by decide, rfl, by decide⟩

/-- C9 (amended): the parent and self nodes are labelled with the last —
possibly empty — path segment of the LAST matching link's href, keeping
the default labels "parent" and "self" when no such link exists; the
children attached by the initial population are always labelled with
their rel; only the child-population branch labels an action link
carrying a title as "rel (title)", every other child getting its rel. -/
theorem C9_labels (links : List Link) (hwf : ∀ l ∈ links, wfInitLink l) :
    ((parentNodeOf (addLinksNodeInit links).1).label
      = ((links.filter (isRelB "parent")).getLast?).elim "parent"
          (fun l => lastPathSeg (l.href.getD "")))
    ∧ ((selfNodeOf (addLinksNodeInit links).1).label
      = ((links.filter (isRelB "self")).getLast?).elim "self"
          (fun l => lastPathSeg (l.href.getD "")))
    ∧ ((selfNodeOf (addLinksNodeInit links).1).children.map PyTree.label
      = (pySorted (links.filter navigableB)).map (fun l => l.rel.getD ""))
    ∧ ∀ (links' : List Link) (lb : String) (d : Option Link) (ae : Bool),
        (∀ l ∈ links', l.rel.isSome) →
        (populateNode links' (.mk lb d ae [])).1.children.map PyTree.label
          = (pySorted (links'.filter navigableB)).map (fun l => childLabel (l.rel.getD "") l) := by
  have hwf' : ∀ l ∈ pySorted links, wfInitLink l := fun l hl =>
    hwf l ((List.mem_insertionSort keyLe).mp hl)
  have hbe := buildInit_eq (pySorted links) {} hwf'
  refine ⟨?_, ?_, ?_, ?_⟩
  · rw [show (parentNodeOf (addLinksNodeInit links).1).label
        = (buildInit (pySorted links) {}).1.pLabel from by
      unfold addLinksNodeInit
      rcases buildInit (pySorted links) {} with ⟨acc, e⟩
      rfl]
    rw [hbe]
    dsimp only
    rw [filter_pySorted_isRelB]
  · rw [show (selfNodeOf (addLinksNodeInit links).1).label
        = (buildInit (pySorted links) {}).1.sLabel from by
      unfold addLinksNodeInit
      rcases buildInit (pySorted links) {} with ⟨acc, e⟩
      rfl]
    rw [hbe]
    dsimp only
    rw [filter_pySorted_isRelB]
  · rw [show (selfNodeOf (addLinksNodeInit links).1).children
        = (buildInit (pySorted links) {}).1.leaves from by
      unfold addLinksNodeInit
      rcases buildInit (pySorted links) {} with ⟨acc, e⟩
      rfl]
    rw [hbe]
    dsimp only
    rw [filter_pySorted]
    simp only [List.nil_append, List.map_map]
    simp [Function.comp, mkInitLeaf, PyTree.label]
  · intro links' lb d ae hrel
    rw [populateNode_of_empty links' lb d ae hrel]
    simp only [PyTree.children, List.map_map]
    simp [Function.comp, mkChildLeaf, PyTree.label]

theorem C9_witness :
    (parentNodeOf (addLinksNodeInit
        [{ rel := some "parent", href := some "/api/domain" }]).1).label
      = (([{ rel := some "parent", href := some "/api/domain" }].filter
          (isRelB "parent")).getLast?).elim "parent"
          (fun l => lastPathSeg (l.href.getD "")) :=
  (C9_labels [{ rel := some "parent", href := some "/api/domain" }] (by decide)).1

end WlsTui

namespace WlsTui

/-- C10: a document fetched through a node selection that has items with
a canonical link but no top-level `links` key makes the promotion loop
raise `KeyError('links')` on the append; the handler shows the error
text (the formatted `'links'`) in the output view and the tree is not
touched, so the document is neither displayed nor integrated. -/
theorem C10_missing_links_keyerror (st : AppState) (path : List Nat) (uri : String)
    (its : List Item) (r : List (String × String))
    (hwf : ∀ it ∈ its, wfItem it)
    (hex : ∃ it ∈ its, ∃ l ∈ it.links.getD [], l.rel = some "canonical") :
    (fetchAndUpdate (.ok { links := none, items := some its, rest := r })
        uri (some path) st).tree = st.tree
    ∧ (fetchAndUpdate (.ok { links := none, items := some its, rest := r })
        uri (some path) st).output = .errText (fmtErr "'links'") := by
  unfold fetchAndUpdate fetchSuccess
  dsimp only
  rw [promoteItems_none_of_canonical its hwf hex]
  exact ⟨rfl, rfl⟩

theorem C10_witness :
    (fetchAndUpdate (Except.ok
        { links := none,
          items := some [{ name := some "o1", links := some [{ rel := some "canonical", href := some "/o/1" }] }],
          rest := [("x", "y")] })
        "/u" (some [0])
        (AppState.mk (.mk "Links" none true [.mk "orders" none true []]) "" (.jsonDoc {})
          true [])).output
      = .errText (fmtErr "'links'") :=
  (C10_missing_links_keyerror _ [0] "/u" _ _ (by decide) (by decide)).2

end WlsTui

namespace WlsTui

/-- C8 counterexample: with decluttering off, a node-selection fetch of
a document with items displays the document with the promoted item link
appended to `links` — not the document as fetched. -/
theorem C8_counterexample :
    (fetchAndUpdate (Except.ok
        { links := some [],
          items := some [{ name := some "o1", links := some [{ rel := some "canonical", href := some "/o/1" }] }],
          rest := [] })
        "/api/orders" (some [0])
        (AppState.mk (.mk "Links" none true [.mk "orders" none true []]) "" (.jsonDoc {})
          false [])).output
      = .jsonDoc
          { links := some [{ rel := some "o1", href := some "/o/1" }],
            items := some [{ name := some "o1", links := some [{ rel := some "canonical", href := some "/o/1" }] }],
            rest := [] }
    ∧ OutView.jsonDoc
          { links := some [{ rel := some "o1", href := some "/o/1" }],
            items := some [{ name := some "o1", links := some [{ rel := some "canonical", href := some "/o/1" }] }],
            rest := [] }
      ≠ .jsonDoc
          { links := some [],
            items := some [{ name := some "o1", links := some [{ rel := some "canonical", href := some "/o/1" }] }],
            rest := [] } :=
  ⟨rfl, by decide⟩

end WlsTui

namespace WlsTui

/-- C8 (amended): after every successful fetch that raises no KeyError,
the output view shows exactly the just-fetched document augmented with
the promoted item links (node-selection fetches append them to `links`),
with the `links` field removed when `unclutter` is set and the
(possibly augmented) `links` kept otherwise; it never shows a stale
document. -/
theorem C8_output (data : Document) (uri : String) (cur : Option (List Nat)) (st : AppState)
    (hrel : ∀ l ∈ data.links.getD [], l.rel.isSome)
    (hps : cur = none → ∀ l ∈ data.links.getD [], wfInitLink l)
    (hwf : ∀ it ∈ data.items.getD [], wfItem it)
    (hnc : data.links = none → ∀ it ∈ data.items.getD [], ∀ l ∈ it.links.getD [],
        l.rel ≠ some "canonical") :
    (fetchAndUpdate (.ok data) uri cur st).output
      = .jsonDoc (if st.unclutter then { augmentedDoc data cur with links := none }
          else augmentedDoc data cur) := by
  unfold fetchAndUpdate
  dsimp only
  unfold fetchSuccess
  cases cur with
  | none =>
    dsimp only
    rcases hi : addLinksNodeInit (data.links.getD []) with ⟨t, e⟩
    have he : e = none := by
      have h2 : (addLinksNodeInit (data.links.getD [])).2 = none := by
        have hwf2 : ∀ l ∈ pySorted (data.links.getD []), wfInitLink l := fun l hl =>
          (hps rfl) l ((List.mem_insertionSort keyLe).mp hl)
        unfold addLinksNodeInit
        rw [buildInit_eq _ {} hwf2]
      rw [hi] at h2
      exact h2
    subst he
    dsimp only
    rw [finishOutput_output]
    rfl
  | some path =>
    dsimp only
    cases hitems : data.items with
    | none =>
      dsimp only
      unfold continueLinks
      cases hlinks : data.links with
      | none =>
        dsimp only
        rw [finishOutput_output]
        simp [augmentedDoc, hitems]
      | some ls =>
        dsimp only
        rcases hm : modifyAtE st.tree path (populateNode ls) with ⟨t, e⟩
        have he : e = none := by
          have h1 : ∀ m, (populateNode ls m).2 = none := populateNode_snd_none ls (by
            intro l hl
            exact hrel l (by rw [hlinks]; simpa using hl))
          have h2 := modifyAtE_snd_none (populateNode ls) h1 path st.tree
          rw [hm] at h2
          exact h2
        subst he
        dsimp only
        rw [finishOutput_output]
        simp [augmentedDoc, hitems]
    | some its =>
      dsimp only
      cases hlinks : data.links with
      | some ls =>
        have hwf2 : ∀ it ∈ its, wfItem it := by
          intro it hit
          exact hwf it (by rw [hitems]; simpa using hit)
        rw [promoteItems_some_eq its ls hwf2]
        dsimp only
        unfold continueLinks
        dsimp only
        rcases hm : modifyAtE (setAllowExpandAt st.tree path) path
            (populateNode (ls ++ expandSpec its)) with ⟨t, e⟩
        have he : e = none := by
          have h1 : ∀ m, (populateNode (ls ++ expandSpec its) m).2 = none :=
            populateNode_snd_none _ (by
              intro l hl
              rcases List.mem_append.mp hl with h' | h'
              · exact hrel l (by rw [hlinks]; simpa using h')
              · exact expandSpec_rel_isSome its l h')
          have h2 := modifyAtE_snd_none (populateNode (ls ++ expandSpec its)) h1 path
            (setAllowExpandAt st.tree path)
          rw [hm] at h2
          exact h2
        subst he
        dsimp only
        rw [finishOutput_output]
        simp [augmentedDoc, hitems, hlinks]
      | none =>
        have h1 : ∀ it ∈ its, ∀ l ∈ it.links.getD [], l.rel.isSome := by
          intro it hit l hl
          exact ((hwf it (by rw [hitems]; simpa using hit)) l hl).1
        have h2 : ∀ it ∈ its, ∀ l ∈ it.links.getD [], l.rel ≠ some "canonical" := by
          intro it hit l hl
          exact (hnc hlinks) it (by rw [hitems]; simpa using hit) l hl
        rw [promoteItems_none_of_no_canonical its h1 h2]
        dsimp only
        unfold continueLinks
        dsimp only
        rw [finishOutput_output]
        simp [augmentedDoc, hitems, hlinks]

end WlsTui

namespace WlsTui

theorem C8_witness :
    (fetchAndUpdate (Except.ok
        { links := some [{ rel := some "a", href := some "/a" }],
          items := none,
          rest := [("k", "v")] })
        "/u" (some [0])
        (AppState.mk (.mk "Links" none true [.mk "n" none true []]) "" (.jsonDoc {})
          false [])).output
      = .jsonDoc (if (false : Bool) then
          { augmentedDoc
              { links := some [{ rel := some "a", href := some "/a" }],
                items := none,
                rest := [("k", "v")] } (some [0]) with links := none }
        else augmentedDoc
              { links := some [{ rel := some "a", href := some "/a" }],
                items := none,
                rest := [("k", "v")] } (some [0])) :=
  C8_output
    { links := some [{ rel := some "a", href := some "/a" }],
      items := none,
      rest := [("k", "v")] } "/u" (some [0])
    (AppState.mk (.mk "Links" none true [.mk "n" none true []]) "" (.jsonDoc {}) false [])
    (by decide) (by decide) (by decide) (by decide)

end WlsTui
